import Mathlib

/-!
Verification of the distributed key-value store's partitioning/routing layer.

Shallow embedding of:
- `hash/hash.go`: `HashRing`, `NewHashRing`, `AddNode`, `GetNode`
  (consistent hashing with crc32 IEEE and `sort.Search` binary search);
- `store` package (`KeyValueStore`: `Put`, `Get`, `Delete` over a Go map);
- `main.go` (`Server.Put`, `Server.Get`, `Server.Delete` routing logic).

Modelling conventions:
- Go `string` bytes are modelled as the list of character code points
  (`String.data.map Char.toNat`); for the ASCII strings used throughout
  this repository this coincides with the UTF-8 bytes Go hashes.
- `crc32.ChecksumIEEE` is implemented bit-by-bit with the reflected
  polynomial 0xEDB88320, exactly the IEEE CRC-32 Go computes; the result
  is a `Nat` in `[0, 2^32)`, matching Go's `int(crc32.ChecksumIEEE(...))`
  on 64-bit platforms (non-negative, no overflow).
- Go's `sort.Ints` is a correct ascending comparison sort; on `List Nat`
  any such sort produces the identical output list, so it is modelled by
  `List.insertionSort (· ≤ ·)`.
- Go's `sort.Search` loop is modelled by `goSearchAux` with a structural
  fuel argument (`fuel = j - i` suffices; each iteration shrinks `j - i`).
- The Go map `map[int]string` is modelled as an association list where a
  new insert is consed in front and lookup takes the first match (later
  inserts shadow earlier ones); a missing key yields `""`, Go's zero value.
- An out-of-range slice access (a Go runtime panic) is modelled by
  `List.get?` returning `none`: `GetNode` returns `none` exactly when the
  Go code would panic.
-/

/-- Reflected CRC-32 (IEEE) polynomial, as in Go's `crc32.IEEETable`. -/
def crc32Poly : Nat := 0xEDB88320

/-- One shift-and-conditionally-xor round of the bitwise CRC-32 update. -/
def crc32Round (crc : Nat) : Nat :=
  if crc % 2 = 1 then (crc / 2) ^^^ crc32Poly else crc / 2

/-- Iterate `crc32Round` a fixed number of times (8 per input byte). -/
def crc32Rounds : Nat → Nat → Nat
  | 0, crc => crc
  | n + 1, crc => crc32Rounds n (crc32Round crc)

/-- `crc32.ChecksumIEEE` over a byte list: init 0xFFFFFFFF, per byte xor
then 8 reflected rounds, final xor 0xFFFFFFFF. -/
def crc32 (bytes : List Nat) : Nat :=
  (bytes.foldl (fun crc b => crc32Rounds 8 (crc ^^^ (b % 256))) 0xFFFFFFFF) ^^^ 0xFFFFFFFF

/-- Bytes of a Go string; code points coincide with UTF-8 bytes for the
ASCII strings this repository uses. -/
def strBytes (s : String) : List Nat :=
  s.data.map Char.toNat

/-- The hash ring of `hash/hash.go`: sorted virtual-node hashes, a
hash-to-node map, and the virtual-node (replication) factor. -/
structure HashRing where
  nodes : List Nat
  nodeMap : List (Nat × String)
  replication : Nat
deriving Repr

/-- `NewHashRing` creates a new hash ring. -/
def NewHashRing (replication : Nat) : HashRing :=
  { nodes := [], nodeMap := [], replication := replication }

/-- Go map lookup `m[k]` for `map[int]string`: first matching entry
(newest insert), or `""` (the zero value) when absent. -/
def mapFind (m : List (Nat × String)) (k : Nat) : String :=
  match m with
  | [] => ""
  | (k', v) :: rest => if k' = k then v else mapFind rest k

/-- The hash of the `i`-th virtual entry for `node`:
`int(crc32.ChecksumIEEE([]byte(node+strconv.Itoa(i))))`. -/
def virtualHash (node : String) (i : Nat) : Nat :=
  crc32 (strBytes (node ++ toString i))

/-- The hashes `AddNode` appends for `node`: one per virtual index in
`[0, replication)`. -/
def virtualHashes (node : String) (r : Nat) : List Nat :=
  (List.range r).map (virtualHash node)

/-- The map entries `AddNode` inserts for `node`. All carry the same
value `node`, so the in-call insert order is immaterial; they sit in
front of the old map so they shadow colliding older entries, as Go map
assignment does. -/
def virtualEntries (node : String) (r : Nat) : List (Nat × String) :=
  (List.range r).map (fun i => (virtualHash node i, node))

/-- `AddNode` of `hash/hash.go`: append the `replication` virtual hashes
to `nodes`, record them in `nodeMap`, then `sort.Ints(hr.nodes)`. -/
def AddNode (hr : HashRing) (node : String) : HashRing :=
  { nodes := List.insertionSort (· ≤ ·) (hr.nodes ++ virtualHashes node hr.replication)
    nodeMap := virtualEntries node hr.replication ++ hr.nodeMap
    replication := hr.replication }

/-- The loop body of Go's `sort.Search(n, f)` with a structural fuel
argument; `fuel = j - i` steps always suffice. -/
def goSearchAux (f : Nat → Bool) : Nat → Nat → Nat → Nat
  | 0, i, _ => i
  | fuel + 1, i, j =>
    if i < j then
      let m := (i + j) / 2
      if f m then goSearchAux f fuel i m else goSearchAux f fuel (m + 1) j
    else i

/-- Go's `sort.Search(n, f)`: binary search on `[0, n)` for the boundary
of `f`. -/
def goSearch (f : Nat → Bool) (n : Nat) : Nat :=
  goSearchAux f n 0 n

/-- `GetNode` of `hash/hash.go`: hash the key, `sort.Search` the sorted
hash list for the first entry `≥ hash`, wrap to index 0 when the search
runs off the end, and return the mapped node. `none` models the Go
runtime panic of `hr.nodes[idx]` on an empty ring. -/
def GetNode (hr : HashRing) (key : String) : Option String :=
  let hash := crc32 (strBytes key)
  let idx := goSearch (fun i => decide (hr.nodes.getD i 0 ≥ hash)) hr.nodes.length
  let idx := if idx = hr.nodes.length then 0 else idx
  (hr.nodes.get? idx).map (mapFind hr.nodeMap)

/-- The ring `main.go` builds at startup: fold `AddNode` over the static
node list, starting from `NewHashRing r`. -/
def buildRing (r : Nat) (nodeList : List String) : HashRing :=
  nodeList.foldl AddNode (NewHashRing r)

/-- First index whose hash is `≥ h`, as the specification words it
(linear first-match over the sorted sequence); returns the length when
no entry qualifies. -/
def firstIdxGE (hashes : List Nat) (h : Nat) : Nat :=
  match hashes with
  | [] => 0
  | x :: rest => if h ≤ x then 0 else firstIdxGE rest h + 1

/-- Lookup as the specification words it: the node identifier mapped to
the first ring entry whose hash is `≥ hash(key)`, wrapping to the entry
at index 0 when `hash(key)` exceeds every entry's hash. Stated for
comparison with `GetNode`, which uses binary search. -/
def specGetNode (hr : HashRing) (key : String) : Option String :=
  let hash := crc32 (strBytes key)
  let i := firstIdxGE hr.nodes hash
  let idx := if i = hr.nodes.length then 0 else i
  (hr.nodes.get? idx).map (mapFind hr.nodeMap)

/-- The per-node contributions of `virtualHashes`, concatenated over a
node list, in order: the multiset of hashes `main.go`'s startup loop
feeds into the ring. -/
def allVirtualHashes (r : Nat) : List String → List Nat
  | [] => []
  | n :: rest => virtualHashes n r ++ allVirtualHashes r rest

/-- The in-memory store of `store/kvstore.go`: a Go `map[string]string`,
modelled as a partial map. The `sync.RWMutex` guards concurrent access
and has no sequential semantics, so it does not appear in the model. -/
def KeyValueStore := String → Option String

/-- `NewKeyValueStore` creates a new empty store. -/
def NewKeyValueStore : KeyValueStore := fun _ => none

namespace KeyValueStore

/-- `Put` adds a key-value pair to the store (`kvs.data[key] = value`). -/
def Put (kvs : KeyValueStore) (key value : String) : KeyValueStore :=
  fun k => if k = key then some value else kvs k

/-- `Get` returns `value, exists`; a missing key yields the zero value
`""` and `false`, as a Go two-valued map read does. -/
def Get (kvs : KeyValueStore) (key : String) : String × Bool :=
  match kvs key with
  | some v => (v, true)
  | none => ("", false)

/-- `Delete` removes a key (`delete(kvs.data, key)`); deleting an absent
key is a no-op in Go. -/
def Delete (kvs : KeyValueStore) (key : String) : KeyValueStore :=
  fun k => if k = key then none else kvs k

end KeyValueStore

/-- `pb.PutRequest`. -/
structure PutRequest where
  key : String
  value : String
deriving Repr, DecidableEq

/-- `pb.PutResponse`. -/
structure PutResponse where
  success : Bool
deriving Repr, DecidableEq

/-- `pb.GetRequest`. -/
structure GetRequest where
  key : String
deriving Repr, DecidableEq

/-- `pb.GetResponse`. -/
structure GetResponse where
  value : String
  found : Bool
deriving Repr, DecidableEq

/-- `pb.DeleteRequest`. -/
structure DeleteRequest where
  key : String
deriving Repr, DecidableEq

/-- `pb.DeleteResponse`. -/
structure DeleteResponse where
  success : Bool
deriving Repr, DecidableEq

/-- The outbound gRPC side, as an oracle indexed by target address: one
function per operation, modelling `grpc.Dial` plus the client call as a
single fallible step (`Except.error` covers both a failed dial and a
failed remote call, the two `err` paths of `main.go`). -/
structure RemoteCalls where
  put : String → PutRequest → Except String PutResponse
  get : String → GetRequest → Except String GetResponse
  delete : String → DeleteRequest → Except String DeleteResponse

/-- The node service of `main.go`: local store, hash ring, own identity.
(The `nodes` list field of the Go struct is never read by the handlers
and is omitted.) -/
structure Server where
  store : KeyValueStore
  hashRing : HashRing
  currentNode : String

/-- `Server.Put` of `main.go`: resolve the owner via the ring; forward
to it when it is not the current node, returning the remote response
unchanged; otherwise write to the local store and answer success.
`none` propagates the `GetNode` panic on an empty ring; the returned
`Server` carries the (possibly updated) local state. -/
def Server.Put (s : Server) (remote : RemoteCalls) (req : PutRequest) :
    Option (Server × Except String PutResponse) :=
  (GetNode s.hashRing req.key).map fun targetNode =>
    if targetNode ≠ s.currentNode then
      (s, remote.put targetNode req)
    else
      ({ s with store := s.store.Put req.key req.value }, Except.ok ⟨true⟩)

/-- `Server.Get` of `main.go`: same routing; locally answers
`value, found` from the store. -/
def Server.Get (s : Server) (remote : RemoteCalls) (req : GetRequest) :
    Option (Server × Except String GetResponse) :=
  (GetNode s.hashRing req.key).map fun targetNode =>
    if targetNode ≠ s.currentNode then
      (s, remote.get targetNode req)
    else
      (s, Except.ok ⟨(s.store.Get req.key).1, (s.store.Get req.key).2⟩)

/-- `Server.Delete` of `main.go`: same routing; locally deletes and
answers success. -/
def Server.Delete (s : Server) (remote : RemoteCalls) (req : DeleteRequest) :
    Option (Server × Except String DeleteResponse) :=
  (GetNode s.hashRing req.key).map fun targetNode =>
    if targetNode ≠ s.currentNode then
      (s, remote.delete targetNode req)
    else
      ({ s with store := s.store.Delete req.key }, Except.ok ⟨true⟩)

/-- The static cluster of `main.go`'s `main`. -/
def demoNodes : List String :=
  ["localhost:50051", "localhost:50052", "localhost:50053"]

/-- The ring `main.go` builds: replication 3, the three static nodes. -/
def demoRing : HashRing := buildRing 3 demoNodes

/-- The first node's server as `main.go` configures it. -/
def demoServer : Server :=
  { store := NewKeyValueStore, hashRing := demoRing, currentNode := "localhost:50051" }

/-- A remote oracle whose every call fails, for exercising the
forwarding-failure path. -/
def demoRemoteDown : RemoteCalls :=
  { put := fun _ _ => Except.error "connection refused"
    get := fun _ _ => Except.error "connection refused"
    delete := fun _ _ => Except.error "connection refused" }

/-! ### Correctness of the `sort.Search` loop -/

theorem goSearchAux_bounds (f : Nat → Bool) :
    ∀ fuel i j, i ≤ j →
      i ≤ goSearchAux f fuel i j ∧ goSearchAux f fuel i j ≤ j := by
  intro fuel
  induction fuel with
  | zero => intro i j hij; exact ⟨Nat.le_refl i, hij⟩
  | succ fuel ih =>
    intro i j hij
    simp only [goSearchAux]
    by_cases hlt : i < j
    · simp only [hlt, if_true]
      have hm1 : i ≤ (i + j) / 2 := by omega
      have hm2 : (i + j) / 2 < j := by omega
      by_cases hf : f ((i + j) / 2)
      · simp only [hf, if_true]
        obtain ⟨h1, h2⟩ := ih i ((i + j) / 2) hm1
        exact ⟨h1, Nat.le_trans h2 (Nat.le_of_lt hm2)⟩
      · simp only [hf, if_false]
        obtain ⟨h1, h2⟩ := ih ((i + j) / 2 + 1) j hm2
        exact ⟨Nat.le_trans (by omega) h1, h2⟩
    · simp only [hlt, if_false]
      exact ⟨Nat.le_refl i, hij⟩

theorem goSearchAux_below (f : Nat → Bool) (n : Nat)
    (hmono : ∀ a b, a ≤ b → b < n → f b = false → f a = false) :
    ∀ fuel i j, j ≤ n → (∀ k, k < i → f k = false) →
      ∀ k, k < goSearchAux f fuel i j → f k = false := by
  intro fuel
  induction fuel with
  | zero => intro i j _ hi k hk; exact hi k hk
  | succ fuel ih =>
    intro i j hjn hi k hk
    simp only [goSearchAux] at hk
    by_cases hlt : i < j
    · simp only [hlt, if_true] at hk
      have hm2 : (i + j) / 2 < j := by omega
      by_cases hf : f ((i + j) / 2)
      · simp only [hf, if_true] at hk
        exact ih i ((i + j) / 2) (by omega) hi k hk
      · simp only [hf, if_false] at hk
        refine ih ((i + j) / 2 + 1) j hjn ?_ k hk
        intro k' hk'
        rcases Nat.lt_or_ge k' i with h' | h'
        · exact hi k' h'
        · exact hmono k' ((i + j) / 2) (by omega) (by omega)
            (Bool.eq_false_iff.mpr hf)
    · simp only [hlt, if_false] at hk
      exact hi k hk

theorem goSearchAux_found (f : Nat → Bool) (t : Nat) :
    ∀ fuel i j, j - i ≤ fuel → i ≤ j → (j = t ∨ f j = true) →
      goSearchAux f fuel i j = t ∨ f (goSearchAux f fuel i j) = true := by
  intro fuel
  induction fuel with
  | zero =>
    intro i j hfu hij hj
    have : i = j := by omega
    simpa [goSearchAux, this] using hj
  | succ fuel ih =>
    intro i j hfu hij hj
    simp only [goSearchAux]
    by_cases hlt : i < j
    · simp only [hlt, if_true]
      by_cases hf : f ((i + j) / 2)
      · simp only [hf, if_true]
        exact ih i ((i + j) / 2) (by omega) (by omega) (Or.inr hf)
      · simp only [hf, if_false]
        exact ih ((i + j) / 2 + 1) j (by omega) (by omega) hj
    · have hij' : i = j := by omega
      simpa [hlt, hij'] using hj

theorem goSearch_le (f : Nat → Bool) (n : Nat) : goSearch f n ≤ n :=
  (goSearchAux_bounds f n 0 n (Nat.zero_le n)).2

/-- A boundary index for a monotone predicate on `[0, n)` is unique:
everything below it is `false`, and it is `true` unless it is `n`. -/
theorem boundary_unique (f : Nat → Bool) (n r s : Nat)
    (hr1 : r ≤ n) (hr2 : ∀ k, k < r → f k = false) (hr3 : r < n → f r = true)
    (hs1 : s ≤ n) (hs2 : ∀ k, k < s → f k = false) (hs3 : s < n → f s = true) :
    r = s := by
  rcases Nat.lt_trichotomy r s with h | h | h
  · have h1 := hr3 (Nat.lt_of_lt_of_le h hs1)
    have h2 := hs2 r h
    rw [h1] at h2
    exact absurd h2 (by simp)
  · exact h
  · have h1 := hs3 (Nat.lt_of_lt_of_le h hr1)
    have h2 := hr2 s h
    rw [h1] at h2
    exact absurd h2 (by simp)

/-! ### The linear spec-side lookup index -/

theorem firstIdxGE_le_length (l : List Nat) (h : Nat) :
    firstIdxGE l h ≤ l.length := by
  induction l with
  | nil => simp [firstIdxGE]
  | cons x rest ih =>
    simp only [firstIdxGE, List.length_cons]
    by_cases hx : h ≤ x
    · simp [hx]
    · rw [if_neg hx]
      omega

theorem firstIdxGE_below (l : List Nat) (h : Nat) :
    ∀ k, k < firstIdxGE l h → decide (l.getD k 0 ≥ h) = false := by
  induction l with
  | nil => intro k hk; simp [firstIdxGE] at hk
  | cons x rest ih =>
    intro k hk
    simp only [firstIdxGE] at hk
    by_cases hx : h ≤ x
    · rw [if_pos hx] at hk
      exact absurd hk (Nat.not_lt_zero k)
    · rw [if_neg hx] at hk
      cases k with
      | zero => simpa using hx
      | succ k' =>
        simpa using ih k' (by omega)

theorem firstIdxGE_at (l : List Nat) (h : Nat) :
    firstIdxGE l h < l.length → decide (l.getD (firstIdxGE l h) 0 ≥ h) = true := by
  induction l with
  | nil => intro hk; simp [firstIdxGE] at hk
  | cons x rest ih =>
    intro hk
    simp only [firstIdxGE, List.length_cons] at hk ⊢
    by_cases hx : h ≤ x
    · simp [hx]
    · simp only [hx, if_false] at hk ⊢
      simpa using ih (by omega)

/-! ### Binary search agrees with the linear first-match on sorted input -/

theorem goSearch_eq_firstIdxGE (l : List Nat) (h : Nat)
    (hs : List.Sorted (· ≤ ·) l) :
    goSearch (fun i => decide (l.getD i 0 ≥ h)) l.length = firstIdxGE l h := by
  have hmono : ∀ a b, a ≤ b → b < l.length →
      (fun i => decide (l.getD i 0 ≥ h)) b = false →
      (fun i => decide (l.getD i 0 ≥ h)) a = false := by
    intro a b hab hb hfb
    have ha : a < l.length := Nat.lt_of_le_of_lt hab hb
    have hle : l.getD a 0 ≤ l.getD b 0 := by
      rw [List.getD_eq_getElem l 0 ha, List.getD_eq_getElem l 0 hb]
      have hrel := hs.rel_get_of_le
        (show (⟨a, ha⟩ : Fin l.length) ≤ ⟨b, hb⟩ from hab)
      simpa using hrel
    simp only [decide_eq_false_iff_not, ge_iff_le, not_le] at hfb ⊢
    omega
  apply boundary_unique (fun i => decide (l.getD i 0 ≥ h)) l.length
  · exact goSearch_le _ _
  · exact goSearchAux_below _ l.length hmono l.length 0 l.length
      (Nat.le_refl _) (fun k hk => absurd hk (Nat.not_lt_zero k))
  · intro hlt
    rcases goSearchAux_found _ l.length l.length 0 l.length
        (Nat.le_refl _) (Nat.zero_le _) (Or.inl rfl) with hc | hc
    · exact absurd hc (Nat.ne_of_lt hlt)
    · exact hc
  · exact firstIdxGE_le_length l h
  · exact firstIdxGE_below l h
  · exact firstIdxGE_at l h

/-- On a sorted ring `GetNode` computes exactly the spec's lookup:
node mapped to the first entry `≥ hash(key)`, wrapping to index 0. -/
theorem GetNode_eq_specGetNode (hr : HashRing) (key : String)
    (hs : List.Sorted (· ≤ ·) hr.nodes) :
    GetNode hr key = specGetNode hr key := by
  simp only [GetNode, specGetNode]
  rw [goSearch_eq_firstIdxGE hr.nodes (crc32 (strBytes key)) hs]

/-- On a non-empty ring `GetNode` always produces a node (the index,
after the wrap, is in range). -/
theorem GetNode_isSome (hr : HashRing) (key : String) (hne : hr.nodes ≠ []) :
    (GetNode hr key).isSome = true := by
  have hn : 0 < hr.nodes.length := List.length_pos.mpr hne
  simp only [GetNode]
  have hb := goSearch_le
    (fun i => decide (hr.nodes.getD i 0 ≥ crc32 (strBytes key))) hr.nodes.length
  set r := goSearch
    (fun i => decide (hr.nodes.getD i 0 ≥ crc32 (strBytes key))) hr.nodes.length
  have hidx : (if r = hr.nodes.length then 0 else r) < hr.nodes.length := by
    by_cases hc : r = hr.nodes.length
    · simpa [hc] using hn
    · simp only [hc, if_false]
      omega
  rw [List.get?_eq_get hidx]
  rfl

/-! ### Ring content: what `AddNode` puts into `nodes` and `nodeMap` -/

theorem virtualEntries_map_fst (node : String) (r : Nat) :
    (virtualEntries node r).map Prod.fst = virtualHashes node r := by
  simp [virtualEntries, virtualHashes, List.map_map, Function.comp]

theorem virtualEntries_snd (node : String) (r : Nat) :
    ∀ p ∈ virtualEntries node r, p.2 = node := by
  intro p hp
  simp only [virtualEntries, List.mem_map] at hp
  obtain ⟨i, _, rfl⟩ := hp
  rfl

theorem virtualHashes_length (node : String) (r : Nat) :
    (virtualHashes node r).length = r := by
  simp [virtualHashes]

/-- Looking up a key that one of the freshly inserted entries carries
finds that entry's (shared) value. -/
theorem mapFind_append_of_mem (l : List (Nat × String)) (m : List (Nat × String))
    (v : String) (hv : ∀ p ∈ l, p.2 = v) (h : Nat) (hmem : h ∈ l.map Prod.fst) :
    mapFind (l ++ m) h = v := by
  induction l with
  | nil => simp at hmem
  | cons p rest ih =>
    obtain ⟨k', v'⟩ := p
    simp only [List.map_cons, List.mem_cons] at hmem
    simp only [List.cons_append, mapFind]
    by_cases hk : k' = h
    · simpa [hk] using hv (k', v') (List.mem_cons_self _ _)
    · rcases hmem with hmem | hmem
      · exact absurd hmem.symm hk
      · exact (if_neg hk).trans
          (ih (fun p hp => hv p (List.mem_cons_of_mem _ hp)) hmem)

/-- Any lookup in the extended map yields either the freshly inserted
value or whatever the old map yields. -/
theorem mapFind_append (l : List (Nat × String)) (m : List (Nat × String))
    (v : String) (hv : ∀ p ∈ l, p.2 = v) (h : Nat) :
    mapFind (l ++ m) h = v ∨ mapFind (l ++ m) h = mapFind m h := by
  induction l with
  | nil => exact Or.inr rfl
  | cons p rest ih =>
    obtain ⟨k', v'⟩ := p
    simp only [List.cons_append, mapFind]
    by_cases hk : k' = h
    · exact Or.inl (by simpa [hk] using hv (k', v') (List.mem_cons_self _ _))
    · simpa [hk] using ih (fun p hp => hv p (List.mem_cons_of_mem _ hp))

/-- The ring-to-configured-set invariant: every hash on the ring maps to
a node of `S`. -/
def ringNodesOK (hr : HashRing) (S : List String) : Prop :=
  ∀ h ∈ hr.nodes, mapFind hr.nodeMap h ∈ S

theorem AddNode_nodes_perm (hr : HashRing) (node : String) :
    (AddNode hr node).nodes.Perm (hr.nodes ++ virtualHashes node hr.replication) :=
  List.perm_insertionSort _ _

theorem AddNode_sorted (hr : HashRing) (node : String) :
    List.Sorted (· ≤ ·) (AddNode hr node).nodes :=
  List.sorted_insertionSort _ _

theorem AddNode_replication (hr : HashRing) (node : String) :
    (AddNode hr node).replication = hr.replication := rfl

theorem AddNode_ringNodesOK (hr : HashRing) (node : String) (S : List String)
    (hok : ringNodesOK hr S) (hnode : node ∈ S) :
    ringNodesOK (AddNode hr node) S := by
  intro h hmem
  have hmem' : h ∈ hr.nodes ++ virtualHashes node hr.replication :=
    (AddNode_nodes_perm hr node).mem_iff.mp hmem
  show mapFind (virtualEntries node hr.replication ++ hr.nodeMap) h ∈ S
  rcases List.mem_append.mp hmem' with hold | hnew
  · rcases mapFind_append (virtualEntries node hr.replication) hr.nodeMap node
        (virtualEntries_snd node hr.replication) h with heq | heq
    · rw [heq]; exact hnode
    · rw [heq]; exact hok h hold
  · rw [mapFind_append_of_mem (virtualEntries node hr.replication) hr.nodeMap node
        (virtualEntries_snd node hr.replication) h
        (by rw [virtualEntries_map_fst]; exact hnew)]
    exact hnode

theorem foldl_AddNode_ringNodesOK (S : List String) :
    ∀ (L : List String) (hr : HashRing), ringNodesOK hr S →
      (∀ n ∈ L, n ∈ S) → ringNodesOK (L.foldl AddNode hr) S := by
  intro L
  induction L with
  | nil => intro hr hok _; exact hok
  | cons n rest ih =>
    intro hr hok hsub
    exact ih (AddNode hr n)
      (AddNode_ringNodesOK hr n S hok (hsub n (List.mem_cons_self _ _)))
      (fun n' hn' => hsub n' (List.mem_cons_of_mem _ hn'))

theorem buildRing_ringNodesOK (r : Nat) (L : List String) :
    ringNodesOK (buildRing r L) L :=
  foldl_AddNode_ringNodesOK L L (NewHashRing r)
    (fun h hmem => absurd hmem (List.not_mem_nil h)) (fun _ hn => hn)

theorem foldl_AddNode_sorted :
    ∀ (L : List String) (hr : HashRing), List.Sorted (· ≤ ·) hr.nodes →
      List.Sorted (· ≤ ·) (L.foldl AddNode hr).nodes := by
  intro L
  induction L with
  | nil => intro hr hs; exact hs
  | cons n rest ih =>
    intro hr _
    exact ih (AddNode hr n) (AddNode_sorted hr n)

theorem buildRing_sorted (r : Nat) (L : List String) :
    List.Sorted (· ≤ ·) (buildRing r L).nodes :=
  foldl_AddNode_sorted L (NewHashRing r) List.sorted_nil

theorem foldl_AddNode_replication :
    ∀ (L : List String) (hr : HashRing),
      (L.foldl AddNode hr).replication = hr.replication := by
  intro L
  induction L with
  | nil => intro hr; rfl
  | cons n rest ih => intro hr; exact ih (AddNode hr n)

theorem foldl_AddNode_nodes_perm :
    ∀ (L : List String) (hr : HashRing),
      (L.foldl AddNode hr).nodes.Perm
        (hr.nodes ++ allVirtualHashes hr.replication L) := by
  intro L
  induction L with
  | nil => intro hr; simp [allVirtualHashes]
  | cons n rest ih =>
    intro hr
    have h1 := ih (AddNode hr n)
    rw [AddNode_replication] at h1
    have h2 : ((AddNode hr n).nodes ++ allVirtualHashes hr.replication rest).Perm
        ((hr.nodes ++ virtualHashes n hr.replication) ++
          allVirtualHashes hr.replication rest) :=
      (AddNode_nodes_perm hr n).append_right _
    have h3 : (hr.nodes ++ virtualHashes n hr.replication) ++
        allVirtualHashes hr.replication rest =
        hr.nodes ++ allVirtualHashes hr.replication (n :: rest) := by
      simp [allVirtualHashes, List.append_assoc]
    rw [List.foldl_cons, ← h3]
    exact h1.trans h2

theorem buildRing_nodes_perm (r : Nat) (L : List String) :
    (buildRing r L).nodes.Perm (allVirtualHashes r L) := by
  have h := foldl_AddNode_nodes_perm L (NewHashRing r)
  simpa [NewHashRing] using h

theorem allVirtualHashes_length (r : Nat) :
    ∀ L : List String, (allVirtualHashes r L).length = r * L.length := by
  intro L
  induction L with
  | nil => simp [allVirtualHashes]
  | cons n rest ih =>
    simp only [allVirtualHashes, List.length_append, List.length_cons,
      virtualHashes_length, ih, Nat.mul_succ]
    omega

theorem buildRing_nodes_length (r : Nat) (L : List String) :
    (buildRing r L).nodes.length = r * L.length := by
  rw [(buildRing_nodes_perm r L).length_eq, allVirtualHashes_length]

/-! ### The claims -/

/-- C1: on every non-empty (sorted, as `AddNode` maintains) ring state,
`GetNode` hashes the key with crc32 and returns the node mapped to the
first ring entry whose hash is `≥ hash(key)`, wrapping to the entry at
index 0 when `hash(key)` exceeds every entry's hash; the lookup is total
(always produces a node). -/
theorem ring_lookup_first_geq (hr : HashRing) (key : String)
    (hs : List.Sorted (· ≤ ·) hr.nodes) (hne : hr.nodes ≠ []) :
    GetNode hr key = specGetNode hr key ∧ (GetNode hr key).isSome = true :=
  ⟨GetNode_eq_specGetNode hr key hs, GetNode_isSome hr key hne⟩

set_option maxRecDepth 100000 in
theorem ring_lookup_first_geq_witness :
    (List.Sorted (· ≤ ·) demoRing.nodes ∧ demoRing.nodes ≠ []) ∧
    (GetNode demoRing "mykey" = specGetNode demoRing "mykey" ∧
      (GetNode demoRing "mykey").isSome = true) :=
  ⟨⟨by decide, by decide⟩,
    ring_lookup_first_geq demoRing "mykey" (by decide) (by decide)⟩

/-- C3: on the empty ring (no `AddNode` calls) `GetNode` produces no
node at all: `sort.Search` returns `0 = len`, the wrap leaves index 0,
and `hr.nodes[0]` is out of range (a runtime panic, modelled by `none`).
The `string`-returning signature has no error channel, so no explicit
empty-ring error reaches the caller, contrary to the specification. -/
theorem empty_ring_lookup_out_of_range :
    GetNode (NewHashRing 3) "mykey" = none := rfl

/-- C4: a ring built with factor `R` over node list `L` holds, as a
multiset, exactly the `R` virtual hashes `crc32(node ++ toString i)`,
`i < R`, of each node (`R·|L|` entries in total), and its entry sequence
is sorted ascending — as it also is after every single `AddNode` call. -/
theorem ring_content_sorted_and_complete (R : Nat) (L : List String) :
    (buildRing R L).nodes.Perm (allVirtualHashes R L) ∧
    (buildRing R L).nodes.length = R * L.length ∧
    List.Sorted (· ≤ ·) (buildRing R L).nodes ∧
    ∀ (hr : HashRing) (node : String),
      List.Sorted (· ≤ ·) (AddNode hr node).nodes :=
  ⟨buildRing_nodes_perm R L, buildRing_nodes_length R L, buildRing_sorted R L,
    AddNode_sorted⟩

/-- C5: whenever `GetNode` on a ring built from node list `L` produces a
node, that node is one of the configured set `L`. -/
theorem lookup_in_configured_node_set (R : Nat) (L : List String)
    (K v : String) (h : GetNode (buildRing R L) K = some v) : v ∈ L := by
  simp only [GetNode, Option.map_eq_some'] at h
  obtain ⟨hsh, hget, hmap⟩ := h
  have hmem : hsh ∈ (buildRing R L).nodes := List.get?_mem hget
  have hok := buildRing_ringNodesOK R L hsh hmem
  rwa [hmap] at hok

set_option maxRecDepth 100000 in
theorem lookup_in_configured_node_set_witness :
    GetNode (buildRing 3 demoNodes) "mykey" = some "localhost:50053" ∧
    "localhost:50053" ∈ demoNodes :=
  ⟨by decide,
    lookup_in_configured_node_set 3 demoNodes "mykey" "localhost:50053" (by decide)⟩

/-- C9: re-adding `node` to any ring (in particular one where it is
already present) duplicates its entries instead of deduplicating: a
second `AddNode` leaves, as a multiset, the previous entries plus a
fresh copy of the node's virtual hashes, so after adding `node` twice
each of its `R` hash values occurs twice as often as in one copy (at
least twice), and the sequence holds `2·R` more entries than the base
ring. -/
theorem readd_duplicates_entries (hr : HashRing) (node : String) (i : Nat)
    (hi : i < hr.replication) :
    (AddNode (AddNode hr node) node).nodes.count (virtualHash node i) =
      hr.nodes.count (virtualHash node i) +
        2 * (virtualHashes node hr.replication).count (virtualHash node i) ∧
    1 ≤ (virtualHashes node hr.replication).count (virtualHash node i) ∧
    (AddNode (AddNode hr node) node).nodes.length =
      hr.nodes.length + 2 * hr.replication := by
  have h1 := AddNode_nodes_perm hr node
  have h2 := AddNode_nodes_perm (AddNode hr node) node
  have hperm : (AddNode (AddNode hr node) node).nodes.Perm
      ((hr.nodes ++ virtualHashes node hr.replication) ++
        virtualHashes node hr.replication) :=
    h2.trans (h1.append_right _)
  refine ⟨?_, ?_, ?_⟩
  · rw [hperm.count_eq, List.count_append, List.count_append]
    omega
  · refine List.count_pos_iff.mpr ?_
    simp only [virtualHashes, List.mem_map]
    exact ⟨i, List.mem_range.mpr hi, rfl⟩
  · rw [hperm.length_eq, List.length_append, List.length_append,
      virtualHashes_length]
    omega

set_option maxRecDepth 100000 in
theorem readd_duplicates_entries_witness :
    0 < (AddNode (NewHashRing 3) "localhost:50051").replication ∧
    ((AddNode (AddNode (AddNode (NewHashRing 3) "localhost:50051") "localhost:50051")
          "localhost:50051").nodes.count (virtualHash "localhost:50051" 0) =
        (AddNode (NewHashRing 3) "localhost:50051").nodes.count
          (virtualHash "localhost:50051" 0) +
          2 * (virtualHashes "localhost:50051"
            (AddNode (NewHashRing 3) "localhost:50051").replication).count
              (virtualHash "localhost:50051" 0) ∧
      1 ≤ (virtualHashes "localhost:50051"
            (AddNode (NewHashRing 3) "localhost:50051").replication).count
              (virtualHash "localhost:50051" 0) ∧
      (AddNode (AddNode (AddNode (NewHashRing 3) "localhost:50051") "localhost:50051")
          "localhost:50051").nodes.length =
        (AddNode (NewHashRing 3) "localhost:50051").nodes.length +
          2 * (AddNode (NewHashRing 3) "localhost:50051").replication) :=
  ⟨by decide,
    readd_duplicates_entries (AddNode (NewHashRing 3) "localhost:50051")
      "localhost:50051" 0 (by decide)⟩

/-- C2: each of `Server.Put`/`Get`/`Delete` resolves the owner with
`ring.GetNode(key)`; when the owner is the current node the operation
runs against the local store and its result is returned directly, and
otherwise the identical request payload goes to the owner as a remote
call whose response is returned unchanged. -/
theorem route_local_or_forward (s : Server) (remote : RemoteCalls)
    (owner k v : String) (hk : GetNode s.hashRing k = some owner) :
    (owner = s.currentNode →
      Server.Put s remote ⟨k, v⟩ =
        some ({ s with store := s.store.Put k v }, Except.ok ⟨true⟩) ∧
      Server.Get s remote ⟨k⟩ =
        some (s, Except.ok ⟨(s.store.Get k).1, (s.store.Get k).2⟩) ∧
      Server.Delete s remote ⟨k⟩ =
        some ({ s with store := s.store.Delete k }, Except.ok ⟨true⟩)) ∧
    (owner ≠ s.currentNode →
      Server.Put s remote ⟨k, v⟩ = some (s, remote.put owner ⟨k, v⟩) ∧
      Server.Get s remote ⟨k⟩ = some (s, remote.get owner ⟨k⟩) ∧
      Server.Delete s remote ⟨k⟩ = some (s, remote.delete owner ⟨k⟩)) := by
  constructor
  · intro he
    refine ⟨?_, ?_, ?_⟩ <;> simp [Server.Put, Server.Get, Server.Delete, hk, he]
  · intro hne
    refine ⟨?_, ?_, ?_⟩ <;> simp [Server.Put, Server.Get, Server.Delete, hk, hne]

set_option maxRecDepth 100000 in
theorem route_local_or_forward_witness :
    GetNode demoServer.hashRing "mykey" = some "localhost:50053" ∧
    (Server.Put demoServer demoRemoteDown ⟨"mykey", "myvalue"⟩ =
        some (demoServer, demoRemoteDown.put "localhost:50053" ⟨"mykey", "myvalue"⟩) ∧
      Server.Get demoServer demoRemoteDown ⟨"mykey"⟩ =
        some (demoServer, demoRemoteDown.get "localhost:50053" ⟨"mykey"⟩) ∧
      Server.Delete demoServer demoRemoteDown ⟨"mykey"⟩ =
        some (demoServer, demoRemoteDown.delete "localhost:50053" ⟨"mykey"⟩)) :=
  ⟨by decide,
    (route_local_or_forward demoServer demoRemoteDown "localhost:50053"
      "mykey" "myvalue" (by decide)).2 (by decide)⟩

/-- C6: when the owner is remote and the outbound call (dial or RPC)
fails, each handler returns exactly that failure to its caller — same
error, no retry, no fallback target, and the local store untouched (the
returned server state is the unchanged `s`). -/
theorem forward_failure_propagates (s : Server) (remote : RemoteCalls)
    (owner k v e : String) (hk : GetNode s.hashRing k = some owner)
    (hne : owner ≠ s.currentNode) :
    (remote.put owner ⟨k, v⟩ = Except.error e →
      Server.Put s remote ⟨k, v⟩ = some (s, Except.error e)) ∧
    (remote.get owner ⟨k⟩ = Except.error e →
      Server.Get s remote ⟨k⟩ = some (s, Except.error e)) ∧
    (remote.delete owner ⟨k⟩ = Except.error e →
      Server.Delete s remote ⟨k⟩ = some (s, Except.error e)) := by
  refine ⟨?_, ?_, ?_⟩ <;> intro hrem <;>
    simp [Server.Put, Server.Get, Server.Delete, hk, hne, hrem]

set_option maxRecDepth 100000 in
theorem forward_failure_propagates_witness :
    Server.Put demoServer demoRemoteDown ⟨"mykey", "myvalue"⟩ =
      some (demoServer, Except.error "connection refused") ∧
    Server.Get demoServer demoRemoteDown ⟨"mykey"⟩ =
      some (demoServer, Except.error "connection refused") ∧
    Server.Delete demoServer demoRemoteDown ⟨"mykey"⟩ =
      some (demoServer, Except.error "connection refused") :=
  have h := forward_failure_propagates demoServer demoRemoteDown
    "localhost:50053" "mykey" "myvalue" "connection refused"
    (by decide) (by decide)
  ⟨h.1 rfl, h.2.1 rfl, h.2.2 rfl⟩

/-- C7: a `Get` of an absent key is the normal result `("", false)`, not
an error; a `Delete` of an absent key succeeds and leaves the store as
it was; and deleting the same key again still succeeds with the same
store (idempotent) — none of these operations can fail. -/
theorem absent_key_not_error (m : KeyValueStore) (k : String)
    (h : m k = none) :
    KeyValueStore.Get m k = ("", false) ∧
    KeyValueStore.Delete m k = m ∧
    KeyValueStore.Delete (KeyValueStore.Delete m k) k = KeyValueStore.Delete m k := by
  refine ⟨?_, ?_, ?_⟩
  · simp [KeyValueStore.Get, h]
  · funext k'
    simp only [KeyValueStore.Delete]
    by_cases hk : k' = k
    · rw [if_pos hk, hk, h]
    · rw [if_neg hk]
  · funext k'
    simp only [KeyValueStore.Delete]
    by_cases hk : k' = k
    · simp [hk]
    · simp [hk]

theorem absent_key_not_error_witness :
    NewKeyValueStore "mykey" = none ∧
    (KeyValueStore.Get NewKeyValueStore "mykey" = ("", false) ∧
      KeyValueStore.Delete NewKeyValueStore "mykey" = NewKeyValueStore ∧
      KeyValueStore.Delete (KeyValueStore.Delete NewKeyValueStore "mykey") "mykey" =
        KeyValueStore.Delete NewKeyValueStore "mykey") :=
  ⟨rfl, absent_key_not_error NewKeyValueStore "mykey" rfl⟩

/-- C8: `Put(K, V)` then `Get(K)` on the owning store yields `(V, true)`;
after `Delete(K)`, `Get(K)` yields `found = false` (with the zero-value
string). -/
theorem put_get_roundtrip (m : KeyValueStore) (k v : String) :
    KeyValueStore.Get (KeyValueStore.Put m k v) k = (v, true) ∧
    KeyValueStore.Get (KeyValueStore.Delete m k) k = ("", false) := by
  constructor
  · simp [KeyValueStore.Get, KeyValueStore.Put]
  · simp [KeyValueStore.Get, KeyValueStore.Delete]

/-- C10: `Put(K, V)` and `Delete(K)` touch only the binding of `K`:
every other key reads back exactly as before. (`Get` returns a value
without producing a store at all in this model, mirroring that the Go
code only reads under `RLock`.) -/
theorem store_ops_frame (m : KeyValueStore) (k v k' : String)
    (h : k' ≠ k) :
    KeyValueStore.Put m k v k' = m k' ∧
    KeyValueStore.Delete m k k' = m k' := by
  constructor <;> simp [KeyValueStore.Put, KeyValueStore.Delete, h]

theorem store_ops_frame_witness :
    "other" ≠ "mykey" ∧
    (KeyValueStore.Put NewKeyValueStore "mykey" "myvalue" "other" =
        NewKeyValueStore "other" ∧
      KeyValueStore.Delete NewKeyValueStore "mykey" "other" =
        NewKeyValueStore "other") :=
  ⟨by decide, store_ops_frame NewKeyValueStore "mykey" "myvalue" "other" (by decide)⟩
